import Mathlib

/-!
Shallow embedding of `src/solve.js` (Shamir-style secret reconstruction:
BigInt gcd, normalized fractions, base-N digit parsing, and Lagrange
interpolation at `x = 0`), together with a verification of the
specification's claims about it.

JavaScript `BigInt` values are modelled as `Int`.  JavaScript `/` and `%`
on `BigInt` truncate toward zero, so they are modelled by `Int.tdiv` and
`Int.tmod`.  A thrown `Error` is modelled by the `Except` monad with an
explicit error kind.
-/

namespace Solve

/-- The error kinds the program can throw (spec §7). -/
inductive JsError where
  | ZeroDenominator
  | NonIntegerResult
  | InvalidDigit
  | DigitOutOfRange
deriving DecidableEq

/-- One step of the Euclidean loop in `bigGcd` (`src/solve.js` lines 7-11),
with explicit fuel standing for the loop's termination measure: the second
argument strictly decreases, so `b + 1` units of fuel always suffice. -/
def gcdLoop : Nat → Nat → Nat → Nat
  | 0, a, _ => a
  | fuel + 1, a, b => if b = 0 then a else gcdLoop fuel b (a % b)

/-- `bigGcd` (`src/solve.js` lines 4-13): Euclidean gcd of the absolute
values of two integers. -/
def bigGcd (a b : Int) : Int :=
  (gcdLoop (b.natAbs + 1) a.natAbs b.natAbs : Nat)

/-- The `Fraction` class fields (`src/solve.js` lines 16-27): a rational
number held as a numerator/denominator pair of big integers. -/
structure Fraction where
  n : Int
  d : Int
deriving DecidableEq

/-- The `Fraction` constructor (`src/solve.js` lines 17-27): throws on a
zero denominator, normalizes the sign into the numerator, then divides both
components by their gcd. -/
def Fraction.make (n d : Int) : Except JsError Fraction :=
  if d = 0 then .error .ZeroDenominator
  else
    let n1 := if d < 0 then -n else n
    let d1 := if d < 0 then -d else d
    let g := bigGcd n1 d1
    .ok ⟨n1.tdiv g, d1.tdiv g⟩

/-- `Fraction.fromBigInt` (`src/solve.js` lines 28-30). -/
def Fraction.fromBigInt (x : Int) : Except JsError Fraction :=
  Fraction.make x 1

/-- `Fraction.prototype.add` (`src/solve.js` lines 31-35): cross-multiplied
sum, renormalized by the constructor. -/
def Fraction.add (a other : Fraction) : Except JsError Fraction :=
  Fraction.make (a.n * other.d + other.n * a.d) (a.d * other.d)

/-- `Fraction.prototype.mul` (`src/solve.js` lines 36-40). -/
def Fraction.mul (a other : Fraction) : Except JsError Fraction :=
  Fraction.make (a.n * other.n) (a.d * other.d)

/-- `Fraction.prototype.toBigIntExact` (`src/solve.js` lines 41-46): throws
when the remainder is nonzero, otherwise returns the exact quotient. -/
def Fraction.toBigIntExact (a : Fraction) : Except JsError Int :=
  if a.n.tmod a.d ≠ 0 then .error .NonIntegerResult
  else .ok (a.n.tdiv a.d)

/-- JavaScript `toLowerCase` restricted to the ASCII range the program can
meet: maps `A`-`Z` to `a`-`z` and leaves every other character alone. -/
def jsToLower (c : Char) : Char :=
  if 'A' ≤ c ∧ c ≤ 'Z' then Char.ofNat (c.toNat + 32) else c

/-- The ASCII whitespace characters removed by JavaScript `trim`. -/
def isJsSpace (c : Char) : Bool :=
  c = ' ' || c = '\t' || c = '\n' || c = '\r'

/-- JavaScript `String.prototype.trim`: drop whitespace from both ends. -/
def jsTrim (s : List Char) : List Char :=
  ((s.dropWhile isJsSpace).reverse.dropWhile isJsSpace).reverse

/-- The character loop of `parseInBase` (`src/solve.js` lines 53-61),
accumulating `res = res * b + digit`; digits `0`-`9` and `a`-`z` are
mapped to their values (the source computes the value first and applies
the single range check `digit >= b` afterwards; the check is inlined into
each of the two digit branches here), spaces are skipped, anything else
throws `InvalidDigit`, and a digit value `≥ b` throws `DigitOutOfRange`. -/
def parseDigits (b : Int) : List Char → Int → Except JsError Int
  | [], res => .ok res
  | c :: cs, res =>
    if '0' ≤ c ∧ c ≤ '9' then
      let digit : Int := (c.toNat : Int) - 48
      if digit ≥ b then .error .DigitOutOfRange
      else parseDigits b cs (res * b + digit)
    else if 'a' ≤ c ∧ c ≤ 'z' then
      let digit : Int := 10 + ((c.toNat : Int) - 97)
      if digit ≥ b then .error .DigitOutOfRange
      else parseDigits b cs (res * b + digit)
    else if c = ' ' then parseDigits b cs res
    else .error .InvalidDigit

/-- `parseInBase` (`src/solve.js` lines 50-63): trim, case-fold, then run
the accumulation loop starting from `0`. -/
def parseInBase (str : List Char) (base : Int) : Except JsError Int :=
  parseDigits base ((jsTrim str).map jsToLower) 0

/-- The body of the inner loop of `reconstructAtZero`
(`src/solve.js` lines 89-97): multiply the accumulated numerator by `-x_j`
and the denominator by `x_i - x_j`, then reduce both by their gcd when it
exceeds `1`. -/
def basisStep (xi xj : Int) (nd : Int × Int) : Int × Int :=
  let num := nd.1 * (-xj)
  let den := nd.2 * (xi - xj)
  let g := bigGcd num den
  if g > 1 then (num.tdiv g, den.tdiv g) else (num, den)

/-- The inner loop of `reconstructAtZero` (`src/solve.js` lines 85-98):
accumulate the Lagrange basis weight `w_i(0)` for index `i` as a
numerator/denominator pair, iterating `j` over all indices of `P` and
skipping `j = i`. -/
def basisWeight (P : List (Int × Int)) (i : Nat) : Int × Int :=
  (List.range P.length).foldl
    (fun nd j => if j = i then nd
                 else basisStep (P.getD i (0, 0)).1 (P.getD j (0, 0)).1 nd)
    (1, 1)

/-- `reconstructAtZero` (`src/solve.js` lines 78-103): take the first `k`
points, accumulate `sum = Σ_i Fraction(y_i * num_i, den_i)` starting from
`Fraction(0)`, and extract the exact integer value. -/
def reconstructAtZero (points : List (Int × Int)) (k : Nat) :
    Except JsError Int := do
  let P := points.take k
  let sum0 ← Fraction.fromBigInt 0
  let sum ← (List.range P.length).foldlM
    (fun sum i => do
      let nd := basisWeight P i
      let term ← Fraction.make ((P.getD i (0, 0)).2 * nd.1) nd.2
      sum.add term)
    sum0
  sum.toBigIntExact

/-- Variant of `basisStep` with the intermediate gcd reduction removed
(spec §9 calls the reduction an optimization, not a correctness
requirement). -/
def basisStepNoRed (xi xj : Int) (nd : Int × Int) : Int × Int :=
  (nd.1 * (-xj), nd.2 * (xi - xj))

/-- Variant of `basisWeight` built on `basisStepNoRed`. -/
def basisWeightNoRed (P : List (Int × Int)) (i : Nat) : Int × Int :=
  (List.range P.length).foldl
    (fun nd j => if j = i then nd
                 else basisStepNoRed (P.getD i (0, 0)).1 (P.getD j (0, 0)).1 nd)
    (1, 1)

/-- Variant of `reconstructAtZero` built on `basisWeightNoRed`: the same
algorithm with the intermediate reduction step removed. -/
def reconstructAtZeroNoRed (points : List (Int × Int)) (k : Nat) :
    Except JsError Int := do
  let P := points.take k
  let sum0 ← Fraction.fromBigInt 0
  let sum ← (List.range P.length).foldlM
    (fun sum i => do
      let nd := basisWeightNoRed P i
      let term ← Fraction.make ((P.getD i (0, 0)).2 * nd.1) nd.2
      sum.add term)
    sum0
  sum.toBigIntExact

/-- Evaluation of an integer polynomial given by its coefficient list
(constant coefficient first), used to state the round-trip property. -/
def evalPoly (cs : List Int) (x : Int) : Int :=
  cs.foldr (fun c acc => c + x * acc) 0

/-- The character for a digit value in the `0`-`9`, `a`-`z` alphabet used
by the decoder, used to state the decoding properties. -/
def digitToChar (v : Nat) : Char :=
  if v < 10 then Char.ofNat (48 + v) else Char.ofNat (97 + (v - 10))

end Solve

/-! ### The Euclidean loop computes the gcd -/

namespace Solve

theorem gcdLoop_eq_gcd : ∀ (fuel a b : Nat), b < fuel → gcdLoop fuel a b = Nat.gcd a b := by
  intro fuel
  induction fuel with
  | zero => intro a b h; omega
  | succ fuel ih =>
    intro a b h
    show (if b = 0 then a else gcdLoop fuel b (a % b)) = Nat.gcd a b
    by_cases hb : b = 0
    · subst hb; simp
    · rw [if_neg hb]
      have hlt : a % b < fuel :=
        lt_of_lt_of_le (Nat.mod_lt _ (Nat.pos_of_ne_zero hb)) (by omega)
      rw [ih b (a % b) hlt, Nat.gcd_comm b (a % b), ← Nat.gcd_rec b a, Nat.gcd_comm]

theorem bigGcd_eq_gcd (a b : Int) : bigGcd a b = (Int.gcd a b : Int) := by
  rw [bigGcd, gcdLoop_eq_gcd _ _ _ (Nat.lt_succ_self _)]
  rfl

theorem bigGcd_dvd_left (a b : Int) : bigGcd a b ∣ a := by
  rw [bigGcd_eq_gcd]; exact Int.gcd_dvd_left

theorem bigGcd_dvd_right (a b : Int) : bigGcd a b ∣ b := by
  rw [bigGcd_eq_gcd]; exact Int.gcd_dvd_right

theorem bigGcd_pos (a b : Int) (h : a ≠ 0 ∨ b ≠ 0) : 0 < bigGcd a b := by
  rw [bigGcd_eq_gcd]
  exact_mod_cast Int.gcd_pos_iff.mpr h

/-! ### Truncating division agrees with exact division -/

theorem tdiv_eq_ediv_of_dvd (a b : Int) (h : b ∣ a) : a.tdiv b = a / b := by
  by_cases hb : b = 0
  · subst hb; rw [Int.tdiv_zero, Int.ediv_zero]
  · obtain ⟨q, rfl⟩ := h
    rw [Int.mul_tdiv_cancel_left _ hb, Int.mul_ediv_cancel_left _ hb]

/-! ### Fraction validity and rational value -/

/-- The invariant of the `Fraction` class stated by the spec: positive
denominator and lowest terms. -/
def Fraction.Valid (f : Fraction) : Prop :=
  0 < f.d ∧ Int.gcd f.n f.d = 1

/-- The rational number a `Fraction` denotes. -/
def Fraction.val (f : Fraction) : ℚ :=
  (f.n : ℚ) / (f.d : ℚ)

theorem Fraction.reduce_spec (n1 d1 : Int) (hd : 0 < d1) :
    Fraction.Valid ⟨n1.tdiv (bigGcd n1 d1), d1.tdiv (bigGcd n1 d1)⟩ ∧
    Fraction.val ⟨n1.tdiv (bigGcd n1 d1), d1.tdiv (bigGcd n1 d1)⟩ = (n1 : ℚ) / (d1 : ℚ) := by
  have hg : bigGcd n1 d1 = (Int.gcd n1 d1 : Int) := bigGcd_eq_gcd n1 d1
  have hgpos : 0 < Int.gcd n1 d1 := Int.gcd_pos_iff.mpr (Or.inr hd.ne')
  have hgz : (Int.gcd n1 d1 : Int) ≠ 0 := by exact_mod_cast hgpos.ne'
  have hdn : (Int.gcd n1 d1 : Int) ∣ n1 := Int.gcd_dvd_left
  have hdd : (Int.gcd n1 d1 : Int) ∣ d1 := Int.gcd_dvd_right
  have htn : n1.tdiv (bigGcd n1 d1) = n1 / (Int.gcd n1 d1 : Int) := by
    rw [hg]; exact tdiv_eq_ediv_of_dvd _ _ hdn
  have htd : d1.tdiv (bigGcd n1 d1) = d1 / (Int.gcd n1 d1 : Int) := by
    rw [hg]; exact tdiv_eq_ediv_of_dvd _ _ hdd
  have hDpos : 0 < d1 / (Int.gcd n1 d1 : Int) := by
    have hle : (Int.gcd n1 d1 : Int) ≤ d1 := Int.le_of_dvd hd hdd
    have h1 : 1 ≤ d1 / (Int.gcd n1 d1 : Int) := by
      rw [Int.le_ediv_iff_mul_le (by exact_mod_cast hgpos)]
      simpa using hle
    omega
  refine ⟨⟨?_, ?_⟩, ?_⟩
  · rw [htd]; exact hDpos
  · rw [htn, htd]
    exact Int.gcd_div_gcd_div_gcd hgpos
  · rw [Fraction.val, htn, htd]
    rw [Int.cast_div_charZero hdn, Int.cast_div_charZero hdd]
    have h1 : ((Int.gcd n1 d1 : Int) : ℚ) ≠ 0 := by exact_mod_cast hgz
    have h2 : (d1 : ℚ) ≠ 0 := by exact_mod_cast hd.ne'
    field_simp

theorem Fraction.make_ok (n d : Int) (hd : d ≠ 0) :
    ∃ f, Fraction.make n d = .ok f ∧ f.Valid ∧ f.val = (n : ℚ) / (d : ℚ) := by
  by_cases hneg : d < 0
  · have hpos : 0 < -d := by omega
    obtain ⟨hv, hval⟩ := Fraction.reduce_spec (-n) (-d) hpos
    refine ⟨_, ?_, hv, ?_⟩
    · show Fraction.make n d = _
      rw [Fraction.make, if_neg hd]
      simp only [if_pos hneg]
    · rw [hval]
      push_cast
      rw [neg_div_neg_eq]
  · have hpos : 0 < d := by omega
    obtain ⟨hv, hval⟩ := Fraction.reduce_spec n d hpos
    refine ⟨_, ?_, hv, ?_⟩
    · show Fraction.make n d = _
      rw [Fraction.make, if_neg hd]
      simp only [if_neg hneg]
    · exact hval

theorem Fraction.make_ok_valid {n d : Int} {f : Fraction}
    (h : Fraction.make n d = .ok f) : f.Valid := by
  by_cases hd : d = 0
  · rw [Fraction.make, if_pos hd] at h; exact absurd h (by simp)
  · obtain ⟨g, hg, hv, -⟩ := Fraction.make_ok n d hd
    rw [hg] at h
    cases h
    exact hv

theorem Fraction.make_ok_val {n d : Int} {f : Fraction}
    (h : Fraction.make n d = .ok f) : f.val = (n : ℚ) / (d : ℚ) := by
  by_cases hd : d = 0
  · rw [Fraction.make, if_pos hd] at h; exact absurd h (by simp)
  · obtain ⟨g, hg, -, hval⟩ := Fraction.make_ok n d hd
    rw [hg] at h
    cases h
    exact hval

theorem Fraction.val_inj {f g : Fraction} (hf : f.Valid) (hg : g.Valid)
    (h : f.val = g.val) : f = g := by
  obtain ⟨hfd, hfc⟩ := hf
  obtain ⟨hgd, hgc⟩ := hg
  have hfd0 : (f.d : ℚ) ≠ 0 := by exact_mod_cast hfd.ne'
  have hgd0 : (g.d : ℚ) ≠ 0 := by exact_mod_cast hgd.ne'
  rw [Fraction.val, Fraction.val, div_eq_div_iff hfd0 hgd0] at h
  have hcross : f.n * g.d = g.n * f.d := by exact_mod_cast h
  have hcf : IsCoprime f.n f.d := Int.gcd_eq_one_iff_coprime.mp hfc
  have hcg : IsCoprime g.n g.d := Int.gcd_eq_one_iff_coprime.mp hgc
  have h1 : f.d ∣ g.d := by
    have hdvd : f.d ∣ f.n * g.d := ⟨g.n, by linarith⟩
    exact hcf.symm.dvd_of_dvd_mul_left hdvd
  have h2 : g.d ∣ f.d := by
    have hdvd : g.d ∣ g.n * f.d := ⟨f.n, by linarith⟩
    exact hcg.symm.dvd_of_dvd_mul_left hdvd
  have hdeq : f.d = g.d := Int.dvd_antisymm hfd.le hgd.le h1 h2
  have hneq : f.n = g.n := by
    have := hcross
    rw [hdeq] at this
    exact mul_right_cancel₀ hgd.ne' this
  cases f
  cases g
  simp_all

theorem Fraction.make_congr {n d n' d' : Int} (hd : d ≠ 0) (hd' : d' ≠ 0)
    (h : (n : ℚ) / (d : ℚ) = (n' : ℚ) / (d' : ℚ)) :
    Fraction.make n d = Fraction.make n' d' := by
  obtain ⟨f, hf, hfv, hfval⟩ := Fraction.make_ok n d hd
  obtain ⟨g, hg, hgv, hgval⟩ := Fraction.make_ok n' d' hd'
  rw [hf, hg, Fraction.val_inj hfv hgv (by rw [hfval, hgval, h])]

theorem Fraction.add_ok {a b : Fraction} (ha : a.Valid) (hb : b.Valid) :
    ∃ c, a.add b = .ok c ∧ c.Valid ∧ c.val = a.val + b.val := by
  have hd : a.d * b.d ≠ 0 := mul_ne_zero ha.1.ne' hb.1.ne'
  obtain ⟨c, hc, hv, hval⟩ := Fraction.make_ok (a.n * b.d + b.n * a.d) (a.d * b.d) hd
  refine ⟨c, hc, hv, ?_⟩
  rw [hval, Fraction.val, Fraction.val]
  have h1 : (a.d : ℚ) ≠ 0 := by exact_mod_cast ha.1.ne'
  have h2 : (b.d : ℚ) ≠ 0 := by exact_mod_cast hb.1.ne'
  push_cast
  field_simp

theorem Fraction.toBigIntExact_ok {f : Fraction} {m : Int} (hv : f.Valid)
    (h : f.val = (m : ℚ)) : f.toBigIntExact = .ok m := by
  obtain ⟨hd, -⟩ := hv
  have hdq : (f.d : ℚ) ≠ 0 := by exact_mod_cast hd.ne'
  have hn : f.n = f.d * m := by
    rw [Fraction.val, div_eq_iff hdq] at h
    exact_mod_cast h.trans (mul_comm _ _)
  have hdvd : f.d ∣ f.n := ⟨m, hn⟩
  rw [Fraction.toBigIntExact, if_neg (by simp [Int.tmod_eq_zero_of_dvd hdvd])]
  rw [hn, Int.mul_tdiv_cancel_left _ hd.ne']

end Solve

/-! ### Basis-weight loop invariants -/

namespace Solve

/-- The `x`-coordinate of the point at index `i` (out-of-range access never
happens along reachable paths; a junk default keeps the function total). -/
def ptx (P : List (Int × Int)) (i : Nat) : Int :=
  (P.getD i (0, 0)).1

/-- The `y`-coordinate of the point at index `i`. -/
def pty (P : List (Int × Int)) (i : Nat) : Int :=
  (P.getD i (0, 0)).2

/-- The inner loop of `reconstructAtZero` stopped after the first `m`
indices. -/
def weightAux (P : List (Int × Int)) (i m : Nat) : Int × Int :=
  (List.range m).foldl
    (fun nd j => if j = i then nd else basisStep (ptx P i) (ptx P j) nd)
    (1, 1)

theorem basisWeight_eq_weightAux (P : List (Int × Int)) (i : Nat) :
    basisWeight P i = weightAux P i P.length := rfl

/-- The rational factor index `j` contributes to the Lagrange basis weight
`w_i(0)`. -/
def wfactor (P : List (Int × Int)) (i j : Nat) : ℚ :=
  ((-(ptx P j) : Int) : ℚ) / ((ptx P i - ptx P j : Int) : ℚ)

theorem basisStep_spec (xi xj : Int) (nd : Int × Int) (hden : nd.2 ≠ 0)
    (hne : xi ≠ xj) :
    (basisStep xi xj nd).2 ≠ 0 ∧
    ((basisStep xi xj nd).1 : ℚ) / ((basisStep xi xj nd).2 : ℚ)
      = ((nd.1 : ℚ) / (nd.2 : ℚ)) * (((-xj : Int) : ℚ) / ((xi - xj : Int) : ℚ)) := by
  have hsub : xi - xj ≠ 0 := sub_ne_zero_of_ne hne
  have hden1 : nd.2 * (xi - xj) ≠ 0 := mul_ne_zero hden hsub
  have hprod : ((nd.1 * -xj : Int) : ℚ) / ((nd.2 * (xi - xj) : Int) : ℚ)
      = ((nd.1 : ℚ) / (nd.2 : ℚ)) * (((-xj : Int) : ℚ) / ((xi - xj : Int) : ℚ)) := by
    push_cast
    rw [div_mul_div_comm]
  rw [basisStep]
  by_cases hgt : bigGcd (nd.1 * -xj) (nd.2 * (xi - xj)) > 1
  · simp only [if_pos hgt]
    set g := bigGcd (nd.1 * -xj) (nd.2 * (xi - xj)) with hgdef
    have hgz : g ≠ 0 := by omega
    have hdn : g ∣ nd.1 * -xj := bigGcd_dvd_left _ _
    have hdd : g ∣ nd.2 * (xi - xj) := bigGcd_dvd_right _ _
    have htn : (nd.1 * -xj).tdiv g = (nd.1 * -xj) / g := tdiv_eq_ediv_of_dvd _ _ hdn
    have htd : (nd.2 * (xi - xj)).tdiv g = (nd.2 * (xi - xj)) / g :=
      tdiv_eq_ediv_of_dvd _ _ hdd
    constructor
    · show (nd.2 * (xi - xj)).tdiv g ≠ 0
      rw [htd]
      intro h0
      have := Int.ediv_mul_cancel hdd
      rw [h0, zero_mul] at this
      exact hden1 this.symm
    · show ((nd.1 * -xj).tdiv g : ℚ) / ((nd.2 * (xi - xj)).tdiv g : ℚ) = _
      rw [htn, htd, ← hprod]
      rw [Int.cast_div_charZero hdn, Int.cast_div_charZero hdd]
      have hgq : (g : ℚ) ≠ 0 := by exact_mod_cast hgz
      have hdq : ((nd.2 * (xi - xj) : Int) : ℚ) ≠ 0 := by exact_mod_cast hden1
      have hcan : (g : ℚ) * (((nd.2 * (xi - xj) : Int) : ℚ) / (g : ℚ))
          = ((nd.2 * (xi - xj) : Int) : ℚ) := by
        rw [mul_comm, div_mul_cancel₀ _ hgq]
      rw [div_div, hcan]
  · simp only [if_neg hgt]
    exact ⟨hden1, hprod⟩

theorem basisStep_den_zero (xi xj : Int) (nd : Int × Int)
    (h : nd.2 = 0 ∨ xi = xj) :
    (basisStep xi xj nd).2 = 0 := by
  have hden : nd.2 * (xi - xj) = 0 := by
    rcases h with h | h
    · rw [h, zero_mul]
    · rw [h, sub_self, mul_zero]
  rw [basisStep]
  by_cases hgt : bigGcd (nd.1 * -xj) (nd.2 * (xi - xj)) > 1
  · simp only [if_pos hgt]
    show (nd.2 * (xi - xj)).tdiv _ = 0
    rw [hden, Int.zero_tdiv]
  · simp only [if_neg hgt]
    exact hden

theorem weightAux_succ (P : List (Int × Int)) (i m : Nat) :
    weightAux P i (m + 1)
      = (fun nd j => if j = i then nd else basisStep (ptx P i) (ptx P j) nd)
          (weightAux P i m) m := by
  rw [weightAux, weightAux, List.range_succ, List.foldl_append, List.foldl_cons,
    List.foldl_nil]

theorem weightAux_spec (P : List (Int × Int)) (i m : Nat)
    (hdist : ∀ j < m, j ≠ i → ptx P i ≠ ptx P j) :
    (weightAux P i m).2 ≠ 0 ∧
    ((weightAux P i m).1 : ℚ) / ((weightAux P i m).2 : ℚ)
      = ∏ j ∈ Finset.range m, (if j = i then 1 else wfactor P i j) := by
  induction m with
  | zero =>
    constructor
    · show (1 : Int) ≠ 0; omega
    · show ((1 : Int) : ℚ) / ((1 : Int) : ℚ) = _
      simp
  | succ m ih =>
    have hdist' : ∀ j < m, j ≠ i → ptx P i ≠ ptx P j := fun j hj => hdist j (by omega)
    obtain ⟨ihz, ihv⟩ := ih hdist'
    rw [weightAux_succ, Finset.prod_range_succ]
    by_cases hmi : m = i
    · simp only [if_pos hmi]
      exact ⟨ihz, by rw [ihv]; rw [mul_one]⟩
    · simp only [if_neg hmi]
      have hne : ptx P i ≠ ptx P m := hdist m (by omega) hmi
      obtain ⟨hz, hv⟩ := basisStep_spec (ptx P i) (ptx P m) (weightAux P i m) ihz hne
      refine ⟨hz, ?_⟩
      rw [hv, ihv]
      rfl

theorem weightAux_den_zero (P : List (Int × Int)) (i m : Nat)
    (h : ∃ j, j < m ∧ j ≠ i ∧ ptx P j = ptx P i) :
    (weightAux P i m).2 = 0 := by
  induction m with
  | zero => obtain ⟨j, hj, -, -⟩ := h; omega
  | succ m ih =>
    obtain ⟨j, hj, hji, hjx⟩ := h
    rw [weightAux_succ]
    by_cases hjm : j < m
    · have hz := ih ⟨j, hjm, hji, hjx⟩
      by_cases hmi : m = i
      · simpa only [if_pos hmi] using hz
      · simp only [if_neg hmi]
        exact basisStep_den_zero _ _ _ (Or.inl hz)
    · have hjeq : j = m := by omega
      subst hjeq
      simp only [if_neg hji]
      exact basisStep_den_zero _ _ _ (Or.inr hjx.symm)

end Solve

/-! ### Outer summation loop -/

namespace Solve

/-- The body of the outer loop of `reconstructAtZero` (`src/solve.js`
lines 81-101): build the term fraction for index `i` and add it to the
running sum. -/
def sumStep (P : List (Int × Int)) (sum : Fraction) (i : Nat) :
    Except JsError Fraction := do
  let nd := basisWeight P i
  let term ← Fraction.make ((P.getD i (0, 0)).2 * nd.1) nd.2
  sum.add term

/-- The outer loop of `reconstructAtZero` stopped after the first `m`
indices. -/
def sumAux (P : List (Int × Int)) (m : Nat) : Except JsError Fraction :=
  (List.range m).foldlM (sumStep P) ⟨0, 1⟩

theorem reconstructAtZero_eq (points : List (Int × Int)) (k : Nat) :
    reconstructAtZero points k
      = sumAux (points.take k) (points.take k).length >>= Fraction.toBigIntExact := rfl

/-- The exact rational value of the Lagrange basis weight `w_i(0)` over the
working set `P`. -/
def wval (P : List (Int × Int)) (i : Nat) : ℚ :=
  ∏ j ∈ Finset.range P.length, (if j = i then 1 else wfactor P i j)

theorem sumAux_succ (P : List (Int × Int)) (m : Nat) :
    sumAux P (m + 1) = sumAux P m >>= fun s => sumStep P s m := by
  rw [sumAux, sumAux, List.range_succ, List.foldlM_append]
  simp

theorem sumAux_spec (P : List (Int × Int)) (m : Nat)
    (hdist : ∀ i < m, ∀ j < P.length, j ≠ i → ptx P i ≠ ptx P j) :
    ∃ s, sumAux P m = .ok s ∧ s.Valid ∧
      s.val = ∑ i ∈ Finset.range m, (pty P i : ℚ) * wval P i := by
  induction m with
  | zero =>
    refine ⟨⟨0, 1⟩, rfl, ⟨by decide, by decide⟩, ?_⟩
    simp [Fraction.val]
  | succ m ih =>
    have hdist' : ∀ i < m, ∀ j < P.length, j ≠ i → ptx P i ≠ ptx P j :=
      fun i hi => hdist i (by omega)
    obtain ⟨s, hs, hsv, hsval⟩ := ih hdist'
    obtain ⟨hwz, hwv⟩ := weightAux_spec P m P.length (hdist m (by omega))
    have hnd : basisWeight P m = weightAux P m P.length := basisWeight_eq_weightAux P m
    obtain ⟨t, ht, htv, htval⟩ :=
      Fraction.make_ok (pty P m * (weightAux P m P.length).1) (weightAux P m P.length).2 hwz
    obtain ⟨u, hu, huv, huval⟩ := Fraction.add_ok hsv htv
    refine ⟨u, ?_, huv, ?_⟩
    · rw [sumAux_succ, hs]
      show sumStep P s m = .ok u
      rw [sumStep, hnd]
      show Fraction.make (pty P m * (weightAux P m P.length).1)
          (weightAux P m P.length).2 >>= s.add = .ok u
      rw [ht]
      exact hu
    · rw [huval, hsval, htval, Finset.sum_range_succ]
      congr 1
      rw [wval, ← hwv]
      push_cast
      rw [mul_div_assoc]

theorem sumAux_error_at (P : List (Int × Int)) (m i0 : Nat) (hi : i0 < m)
    (hs : ∃ s, sumAux P i0 = .ok s) (hz : (basisWeight P i0).2 = 0) :
    sumAux P m = .error .ZeroDenominator := by
  obtain ⟨s, hs⟩ := hs
  have hstep : sumStep P s i0 = .error .ZeroDenominator := by
    rw [sumStep]
    show Fraction.make ((P.getD i0 (0, 0)).2 * (basisWeight P i0).1)
        (basisWeight P i0).2 >>= s.add = _
    rw [hz]
    rfl
  have hsucc : sumAux P (i0 + 1) = .error .ZeroDenominator := by
    rw [sumAux_succ, hs]
    exact hstep
  have hm : m = (i0 + 1) + (m - i0 - 1) := by omega
  rw [hm, sumAux, List.range_add, List.foldlM_append]
  show (sumAux P (i0 + 1)) >>= _ = _
  rw [hsucc]
  rfl

end Solve

/-! ### The variant without intermediate reduction -/

namespace Solve

/-- The inner loop of the no-reduction variant stopped after the first `m`
indices. -/
def weightAuxNoRed (P : List (Int × Int)) (i m : Nat) : Int × Int :=
  (List.range m).foldl
    (fun nd j => if j = i then nd else basisStepNoRed (ptx P i) (ptx P j) nd)
    (1, 1)

theorem basisWeightNoRed_eq_weightAuxNoRed (P : List (Int × Int)) (i : Nat) :
    basisWeightNoRed P i = weightAuxNoRed P i P.length := rfl

theorem basisStepNoRed_spec (xi xj : Int) (nd : Int × Int) (hden : nd.2 ≠ 0)
    (hne : xi ≠ xj) :
    (basisStepNoRed xi xj nd).2 ≠ 0 ∧
    ((basisStepNoRed xi xj nd).1 : ℚ) / ((basisStepNoRed xi xj nd).2 : ℚ)
      = ((nd.1 : ℚ) / (nd.2 : ℚ)) * (((-xj : Int) : ℚ) / ((xi - xj : Int) : ℚ)) := by
  have hsub : xi - xj ≠ 0 := sub_ne_zero_of_ne hne
  refine ⟨mul_ne_zero hden hsub, ?_⟩
  show ((nd.1 * -xj : Int) : ℚ) / ((nd.2 * (xi - xj) : Int) : ℚ) = _
  push_cast
  rw [div_mul_div_comm]

theorem weightAuxNoRed_succ (P : List (Int × Int)) (i m : Nat) :
    weightAuxNoRed P i (m + 1)
      = (fun nd j => if j = i then nd else basisStepNoRed (ptx P i) (ptx P j) nd)
          (weightAuxNoRed P i m) m := by
  rw [weightAuxNoRed, weightAuxNoRed, List.range_succ, List.foldl_append,
    List.foldl_cons, List.foldl_nil]

theorem weightAuxNoRed_spec (P : List (Int × Int)) (i m : Nat)
    (hdist : ∀ j < m, j ≠ i → ptx P i ≠ ptx P j) :
    (weightAuxNoRed P i m).2 ≠ 0 ∧
    ((weightAuxNoRed P i m).1 : ℚ) / ((weightAuxNoRed P i m).2 : ℚ)
      = ∏ j ∈ Finset.range m, (if j = i then 1 else wfactor P i j) := by
  induction m with
  | zero =>
    constructor
    · show (1 : Int) ≠ 0; omega
    · show ((1 : Int) : ℚ) / ((1 : Int) : ℚ) = _
      simp
  | succ m ih =>
    have hdist' : ∀ j < m, j ≠ i → ptx P i ≠ ptx P j := fun j hj => hdist j (by omega)
    obtain ⟨ihz, ihv⟩ := ih hdist'
    rw [weightAuxNoRed_succ, Finset.prod_range_succ]
    by_cases hmi : m = i
    · simp only [if_pos hmi]
      exact ⟨ihz, by rw [ihv]; rw [mul_one]⟩
    · simp only [if_neg hmi]
      have hne : ptx P i ≠ ptx P m := hdist m (by omega) hmi
      obtain ⟨hz, hv⟩ := basisStepNoRed_spec (ptx P i) (ptx P m) (weightAuxNoRed P i m) ihz hne
      refine ⟨hz, ?_⟩
      rw [hv, ihv]
      rfl

/-- The body of the outer loop of the no-reduction variant. -/
def sumStepNoRed (P : List (Int × Int)) (sum : Fraction) (i : Nat) :
    Except JsError Fraction := do
  let nd := basisWeightNoRed P i
  let term ← Fraction.make ((P.getD i (0, 0)).2 * nd.1) nd.2
  sum.add term

/-- The outer loop of the no-reduction variant stopped after the first `m`
indices. -/
def sumAuxNoRed (P : List (Int × Int)) (m : Nat) : Except JsError Fraction :=
  (List.range m).foldlM (sumStepNoRed P) ⟨0, 1⟩

theorem reconstructAtZeroNoRed_eq (points : List (Int × Int)) (k : Nat) :
    reconstructAtZeroNoRed points k
      = sumAuxNoRed (points.take k) (points.take k).length >>= Fraction.toBigIntExact := rfl

theorem sumAuxNoRed_succ (P : List (Int × Int)) (m : Nat) :
    sumAuxNoRed P (m + 1) = sumAuxNoRed P m >>= fun s => sumStepNoRed P s m := by
  rw [sumAuxNoRed, sumAuxNoRed, List.range_succ, List.foldlM_append]
  simp

theorem sumStep_eq_noRed (P : List (Int × Int)) (s : Fraction) (i : Nat)
    (hdist : ∀ j < P.length, j ≠ i → ptx P i ≠ ptx P j) :
    sumStep P s i = sumStepNoRed P s i := by
  obtain ⟨hwz, hwv⟩ := weightAux_spec P i P.length hdist
  obtain ⟨hwz', hwv'⟩ := weightAuxNoRed_spec P i P.length hdist
  have hmake : Fraction.make ((P.getD i (0, 0)).2 * (weightAux P i P.length).1)
      (weightAux P i P.length).2
      = Fraction.make ((P.getD i (0, 0)).2 * (weightAuxNoRed P i P.length).1)
        (weightAuxNoRed P i P.length).2 := by
    apply Fraction.make_congr hwz hwz'
    push_cast
    rw [mul_div_assoc, mul_div_assoc, hwv, hwv']
  rw [sumStep, sumStepNoRed, basisWeight_eq_weightAux, basisWeightNoRed_eq_weightAuxNoRed]
  show Fraction.make _ _ >>= s.add = Fraction.make _ _ >>= s.add
  rw [hmake]

theorem sumAux_eq_noRed (P : List (Int × Int)) (m : Nat)
    (hdist : ∀ i < m, ∀ j < P.length, j ≠ i → ptx P i ≠ ptx P j) :
    sumAux P m = sumAuxNoRed P m := by
  induction m with
  | zero => rfl
  | succ m ih =>
    have hdist' : ∀ i < m, ∀ j < P.length, j ≠ i → ptx P i ≠ ptx P j :=
      fun i hi => hdist i (by omega)
    rw [sumAux_succ, sumAuxNoRed_succ, ih hdist']
    cases hres : sumAuxNoRed P m with
    | error e => rfl
    | ok s =>
      show sumStep P s m = sumStepNoRed P s m
      exact sumStep_eq_noRed P s m (hdist m (by omega))

/-- Index-level reading of the claims' distinct-`x` hypotheses. -/
theorem nodup_ptx (P : List (Int × Int)) (h : (P.map Prod.fst).Nodup) :
    ∀ i, i < P.length → ∀ j, j < P.length → j ≠ i → ptx P i ≠ ptx P j := by
  intro i hi j hj hji heq
  apply hji
  have hi' : i < (P.map Prod.fst).length := by simpa using hi
  have hj' : j < (P.map Prod.fst).length := by simpa using hj
  have hx : (P.map Prod.fst)[j] = (P.map Prod.fst)[i] := by
    rw [List.getElem_map, List.getElem_map]
    rw [ptx, ptx, List.getD_eq_getElem _ _ hi, List.getD_eq_getElem _ _ hj] at heq
    exact heq.symm
  exact h.getElem_inj_iff.mp hx

end Solve

/-! ### Lagrange interpolation at zero (mathematical side) -/

namespace Solve

/-- The rational polynomial with the given integer coefficient list
(constant coefficient first).  This is a proof-side mathematical object
(polynomials carry no executable code), not part of the embedding. -/
noncomputable def polyQ (cs : List Int) : Polynomial ℚ :=
  cs.foldr (fun c p => Polynomial.C (c : ℚ) + Polynomial.X * p) 0

theorem polyQ_eval (cs : List Int) (a : Int) :
    (polyQ cs).eval (a : ℚ) = ((evalPoly cs a : Int) : ℚ) := by
  induction cs with
  | nil => simp [polyQ, evalPoly]
  | cons c cs ih =>
    show (Polynomial.C (c : ℚ) + Polynomial.X * polyQ cs).eval (a : ℚ) = _
    have hev : evalPoly (c :: cs) a = c + a * evalPoly cs a := rfl
    rw [hev, Polynomial.eval_add, Polynomial.eval_C, Polynomial.eval_mul,
      Polynomial.eval_X, ih]
    push_cast
    ring

theorem polyQ_coeff_zero (cs : List Int) :
    ∀ m : ℕ, cs.length ≤ m → (polyQ cs).coeff m = 0 := by
  induction cs with
  | nil => intro m hm; simp [polyQ]
  | cons c cs ih =>
    intro m hm
    have hpoly : polyQ (c :: cs) = Polynomial.C (c : ℚ) + Polynomial.X * polyQ cs := rfl
    rw [hpoly, Polynomial.coeff_add, Polynomial.coeff_C]
    have hlen : cs.length + 1 ≤ m := by simpa using hm
    cases m with
    | zero => omega
    | succ m =>
      rw [Polynomial.coeff_X_mul, if_neg (by omega), ih m (by omega), zero_add]

theorem polyQ_degree (cs : List Int) :
    (polyQ cs).degree < (cs.length : WithBot ℕ) := by
  rw [Polynomial.degree_lt_iff_coeff_zero]
  exact polyQ_coeff_zero cs

theorem prod_ite_erase (s : Finset ℕ) (i : Nat) (f : ℕ → ℚ) :
    (∏ j ∈ s, (if j = i then 1 else f j)) = ∏ j ∈ s.erase i, f j := by
  by_cases hi : i ∈ s
  · rw [← Finset.mul_prod_erase s _ hi, if_pos rfl, one_mul]
    refine Finset.prod_congr rfl ?_
    intro j hj
    rw [if_neg (Finset.ne_of_mem_erase hj)]
  · rw [Finset.erase_eq_of_not_mem hi]
    refine Finset.prod_congr rfl ?_
    intro j hj
    rw [if_neg]
    intro hji
    exact hi (hji ▸ hj)

theorem lagrange_eval_zero (k : Nat) (x r : ℕ → ℚ) (f : Polynomial ℚ)
    (hinj : ∀ i < k, ∀ j < k, x i = x j → i = j)
    (hdeg : f.degree < (k : WithBot ℕ))
    (hval : ∀ i < k, f.eval (x i) = r i) :
    (∑ i ∈ Finset.range k, r i *
        ∏ j ∈ Finset.range k, (if j = i then 1 else (-(x j)) / (x i - x j)))
      = f.eval 0 := by
  have hinjOn : Set.InjOn x (Finset.range k) := by
    intro a ha b hb hab
    simp only [Finset.coe_range, Set.mem_Iio] at ha hb
    exact hinj a ha b hb hab
  have hcard : f.degree < ((Finset.range k).card : WithBot ℕ) := by
    rwa [Finset.card_range]
  have hfi := Lagrange.eq_interpolate hinjOn hcard
  conv_rhs => rw [hfi]
  rw [Lagrange.interpolate_apply, Polynomial.eval_finset_sum]
  refine Finset.sum_congr rfl ?_
  intro i hi
  have hik : i < k := Finset.mem_range.mp hi
  rw [Polynomial.eval_mul, Polynomial.eval_C, hval i hik]
  congr 1
  rw [prod_ite_erase, Lagrange.basis, Polynomial.eval_prod]
  refine Finset.prod_congr rfl ?_
  intro j hj
  rw [Lagrange.basisDivisor, Polynomial.eval_mul, Polynomial.eval_C,
    Polynomial.eval_sub, Polynomial.eval_X, Polynomial.eval_C]
  rw [zero_sub, inv_mul_eq_div]

end Solve

/-! ### The round-trip theorem -/

namespace Solve

theorem reconstruct_ok (cs : List Int) (points : List (Int × Int))
    (hlen : cs.length ≤ points.length)
    (hsample : ∀ p ∈ points, p.2 = evalPoly cs p.1)
    (hnodup : (points.map Prod.fst).Nodup) :
    reconstructAtZero points points.length = .ok (evalPoly cs 0) := by
  have hPeq : points.take points.length = points := List.take_length points
  have hdist := nodup_ptx points hnodup
  obtain ⟨s, hs, hsv, hsval⟩ := sumAux_spec points points.length
    (fun i hi j hj hji => hdist i hi j hj hji)
  rw [reconstructAtZero_eq, hPeq, hs]
  show Fraction.toBigIntExact s = _
  apply Fraction.toBigIntExact_ok hsv
  have hy : ∀ i, i < points.length → pty points i = evalPoly cs (ptx points i) := by
    intro i hi
    have hmem : points[i] ∈ points := List.getElem_mem hi
    have hp := hsample _ hmem
    rw [pty, ptx, List.getD_eq_getElem _ _ hi]
    exact hp
  have hinj : ∀ i < points.length, ∀ j < points.length,
      ((ptx points i : Int) : ℚ) = ((ptx points j : Int) : ℚ) → i = j := by
    intro i hi j hj hij
    by_contra hne
    exact hdist i hi j hj (fun h => hne h.symm) (by exact_mod_cast hij)
  have hdeg : (polyQ cs).degree < (points.length : WithBot ℕ) := by
    rw [Polynomial.degree_lt_iff_coeff_zero]
    intro m hm
    exact polyQ_coeff_zero cs m (by omega)
  have hval : ∀ i < points.length,
      (polyQ cs).eval ((ptx points i : Int) : ℚ) = ((pty points i : Int) : ℚ) := by
    intro i hi
    rw [polyQ_eval, hy i hi]
  have hL := lagrange_eval_zero points.length
    (fun i => ((ptx points i : Int) : ℚ)) (fun i => ((pty points i : Int) : ℚ))
    (polyQ cs) hinj hdeg hval
  have hwv : ∀ i, wval points i
      = ∏ j ∈ Finset.range points.length,
          (if j = i then 1
           else (-((ptx points j : Int) : ℚ))
             / (((ptx points i : Int) : ℚ) - ((ptx points j : Int) : ℚ))) := by
    intro i
    refine Finset.prod_congr rfl ?_
    intro j hj
    by_cases hji : j = i
    · rw [if_pos hji, if_pos hji]
    · rw [if_neg hji, if_neg hji, wfactor]
      push_cast
      rfl
  rw [hsval]
  have hzero : ((0 : Int) : ℚ) = (0 : ℚ) := by push_cast; rfl
  calc (∑ i ∈ Finset.range points.length, (pty points i : ℚ) * wval points i)
      = ∑ i ∈ Finset.range points.length, (pty points i : ℚ) *
          ∏ j ∈ Finset.range points.length,
            (if j = i then 1
             else (-((ptx points j : Int) : ℚ))
               / (((ptx points i : Int) : ℚ) - ((ptx points j : Int) : ℚ))) := by
        refine Finset.sum_congr rfl ?_
        intro i hi
        rw [hwv i]
    _ = (polyQ cs).eval 0 := hL
    _ = ((evalPoly cs 0 : Int) : ℚ) := by rw [← hzero, polyQ_eval]

end Solve

/-! ### Parsing theory -/

namespace Solve

/-- The digit value of a character in the decoder's alphabet, if any. -/
def charDigit (c : Char) : Option Int :=
  if '0' ≤ c ∧ c ≤ '9' then some ((c.toNat : Int) - 48)
  else if 'a' ≤ c ∧ c ≤ 'z' then some (10 + ((c.toNat : Int) - 97))
  else none

/-- A character the decoding loop accepts without an error under base `b`:
a space, or an alphabet digit whose value is below `b`. -/
def GoodChar (b : Int) (c : Char) : Prop :=
  c = ' ' ∨ ∃ v, charDigit c = some v ∧ v < b

theorem parseDigits_ok (b : Int) (cs : List Char) (acc : Int)
    (h : ∀ c ∈ cs, GoodChar b c) :
    parseDigits b cs acc
      = .ok ((cs.filterMap charDigit).foldl (fun r v => r * b + v) acc) := by
  induction cs generalizing acc with
  | nil => rfl
  | cons c cs ih =>
    have hc := h c (List.mem_cons_self c cs)
    have hrest : ∀ x ∈ cs, GoodChar b x := fun x hx => h x (List.mem_cons_of_mem c hx)
    by_cases h09 : '0' ≤ c ∧ c ≤ '9'
    · have hv : charDigit c = some ((c.toNat : Int) - 48) := by
        rw [charDigit, if_pos h09]
      have hlt : (c.toNat : Int) - 48 < b := by
        rcases hc with hc | ⟨v, hcv, hvb⟩
        · subst hc; exact absurd h09 (by decide)
        · rw [hv] at hcv
          cases hcv
          exact hvb
      show (if '0' ≤ c ∧ c ≤ '9' then _ else _) = _
      rw [if_pos h09, if_neg (by omega), ih _ hrest]
      rw [List.filterMap_cons, hv]
      rfl
    · by_cases haz : 'a' ≤ c ∧ c ≤ 'z'
      · have hv : charDigit c = some (10 + ((c.toNat : Int) - 97)) := by
          rw [charDigit, if_neg h09, if_pos haz]
        have hlt : 10 + ((c.toNat : Int) - 97) < b := by
          rcases hc with hc | ⟨v, hcv, hvb⟩
          · subst hc; exact absurd haz (by decide)
          · rw [hv] at hcv
            cases hcv
            exact hvb
        show (if '0' ≤ c ∧ c ≤ '9' then _ else _) = _
        rw [if_neg h09, if_pos haz, if_neg (by omega), ih _ hrest]
        rw [List.filterMap_cons, hv]
        rfl
      · have hsp : c = ' ' := by
          rcases hc with hc | ⟨v, hcv, hvb⟩
          · exact hc
          · rw [charDigit, if_neg h09, if_neg haz] at hcv
            cases hcv
        subst hsp
        have hnone : charDigit ' ' = none := by decide
        show (if ('0' ≤ ' ' ∧ ' ' ≤ '9') then _ else _) = _
        rw [if_neg (by decide), if_neg (by decide), if_pos rfl, ih _ hrest]
        rw [List.filterMap_cons, hnone]

theorem jsTrim_eq_self (s : List Char) (h : ∀ c ∈ s, isJsSpace c = false) :
    jsTrim s = s := by
  have hdw : ∀ (t : List Char), (∀ c ∈ t, isJsSpace c = false) →
      t.dropWhile isJsSpace = t := by
    intro t ht
    cases t with
    | nil => rfl
    | cons c cs =>
      rw [List.dropWhile_cons, ht c (List.mem_cons_self c cs)]
      simp
  rw [jsTrim, hdw s h, hdw s.reverse (fun c hc => h c (List.mem_reverse.mp hc)),
    List.reverse_reverse]

theorem mem_jsTrim {c : Char} {s : List Char} (h : c ∈ jsTrim s) : c ∈ s := by
  rw [jsTrim] at h
  rw [List.mem_reverse] at h
  have h1 := (List.dropWhile_sublist isJsSpace
    (l := (s.dropWhile isJsSpace).reverse)).mem h
  rw [List.mem_reverse] at h1
  exact (List.dropWhile_sublist isJsSpace (l := s)).mem h1

theorem charDigit_digitToChar :
    ∀ v : Nat, v < 36 → charDigit (digitToChar v) = some ((v : Nat) : Int) := by
  decide

theorem digitToChar_not_space :
    ∀ v : Nat, v < 36 → isJsSpace (digitToChar v) = false := by
  decide

theorem digitToChar_lower :
    ∀ v : Nat, v < 36 → jsToLower (digitToChar v) = digitToChar v := by
  decide

theorem filterMap_charDigit_digits (ds : List Nat) (h : ∀ v ∈ ds, v < 36) :
    (ds.map digitToChar).filterMap charDigit
      = ds.map (fun v : Nat => ((v : Nat) : Int)) := by
  induction ds with
  | nil => rfl
  | cons v ds ih =>
    rw [List.map_cons, List.filterMap_cons,
      charDigit_digitToChar v (h v (List.mem_cons_self v ds))]
    simp only [ih (fun w hw => h w (List.mem_cons_of_mem v hw))]
    rfl

theorem parseInBase_digits (b : Int) (ds : List Nat)
    (h : ∀ v ∈ ds, v < 36 ∧ (v : Int) < b) :
    parseInBase (ds.map digitToChar) b
      = .ok (ds.foldl (fun (r : Int) (v : Nat) => r * b + (v : Int)) 0) := by
  have hns : ∀ c ∈ ds.map digitToChar, isJsSpace c = false := by
    intro c hc
    rw [List.mem_map] at hc
    obtain ⟨v, hv, rfl⟩ := hc
    exact digitToChar_not_space v (h v hv).1
  have hlow : (ds.map digitToChar).map jsToLower = ds.map digitToChar := by
    rw [List.map_map]
    refine List.map_congr_left ?_
    intro v hv
    exact digitToChar_lower v (h v hv).1
  rw [parseInBase, jsTrim_eq_self _ hns, hlow]
  rw [parseDigits_ok]
  · rw [filterMap_charDigit_digits ds (fun v hv => (h v hv).1), List.foldl_map]
  · intro c hc
    rw [List.mem_map] at hc
    obtain ⟨v, hv, rfl⟩ := hc
    exact Or.inr ⟨((v : Nat) : Int),
      charDigit_digitToChar v (h v hv).1, (h v hv).2⟩

theorem parseInBase_spaces (b : Int) (s : List Char) (h : ∀ c ∈ s, c = ' ') :
    parseInBase s b = .ok 0 := by
  have hall : ∀ c ∈ (jsTrim s).map jsToLower, c = ' ' := by
    intro c hc
    rw [List.mem_map] at hc
    obtain ⟨c0, hc0, rfl⟩ := hc
    have : c0 = ' ' := h c0 (mem_jsTrim hc0)
    subst this
    rfl
  rw [parseInBase, parseDigits_ok]
  · have hfm : ((jsTrim s).map jsToLower).filterMap charDigit = [] := by
      rw [List.filterMap_eq_nil_iff]
      intro c hc
      rw [hall c hc]
      rfl
    rw [hfm]
    rfl
  · intro c hc
    exact Or.inl (hall c hc)

end Solve

/-! ### Characterization of the decoding errors -/

namespace Solve

theorem parseDigits_cons (b : Int) (c0 : Char) (cs : List Char) (acc : Int) :
    parseDigits b (c0 :: cs) acc =
      if '0' ≤ c0 ∧ c0 ≤ '9' then
        (if ((c0.toNat : Int) - 48) ≥ b then .error .DigitOutOfRange
         else parseDigits b cs (acc * b + ((c0.toNat : Int) - 48)))
      else if 'a' ≤ c0 ∧ c0 ≤ 'z' then
        (if (10 + ((c0.toNat : Int) - 97)) ≥ b then .error .DigitOutOfRange
         else parseDigits b cs (acc * b + (10 + ((c0.toNat : Int) - 97))))
      else if c0 = ' ' then parseDigits b cs acc
      else .error .InvalidDigit := rfl

theorem split_cons_iff {α : Type} (P Q : α → Prop) (c0 : α) (cs : List α) :
    (∃ l c r, c0 :: cs = l ++ c :: r ∧ P c ∧ ∀ x ∈ l, Q x) ↔
      (P c0 ∨ (Q c0 ∧ ∃ l c r, cs = l ++ c :: r ∧ P c ∧ ∀ x ∈ l, Q x)) := by
  constructor
  · rintro ⟨l, c, r, heq, hP, hQ⟩
    cases l with
    | nil =>
      rw [List.nil_append] at heq
      injection heq with h1 h2
      subst h1
      exact Or.inl hP
    | cons a l =>
      rw [List.cons_append] at heq
      injection heq with h1 h2
      subst h1
      refine Or.inr ⟨hQ c0 (List.mem_cons_self c0 l), l, c, r, h2, hP, ?_⟩
      intro x hx
      exact hQ x (List.mem_cons_of_mem c0 hx)
  · rintro (hP | ⟨hQ0, l, c, r, heq, hP, hQ⟩)
    · refine ⟨[], c0, cs, rfl, hP, ?_⟩
      intro x hx
      exact absurd hx (List.not_mem_nil x)
    · refine ⟨c0 :: l, c, r, by rw [List.cons_append, heq], hP, ?_⟩
      intro x hx
      rcases List.mem_cons.mp hx with h | h
      · subst h; exact hQ0
      · exact hQ x h

theorem parseDigits_invalid_iff (b : Int) (cs : List Char) (acc : Int) :
    parseDigits b cs acc = .error .InvalidDigit ↔
      ∃ l c r, cs = l ++ c :: r ∧ (charDigit c = none ∧ c ≠ ' ')
        ∧ ∀ x ∈ l, GoodChar b x := by
  induction cs generalizing acc with
  | nil =>
    constructor
    · intro h
      exact absurd h (by simp [parseDigits])
    · rintro ⟨l, c, r, heq, -, -⟩
      simp at heq
  | cons c0 cs ih =>
    rw [parseDigits_cons,
      split_cons_iff (fun c => charDigit c = none ∧ c ≠ ' ') (GoodChar b) c0 cs]
    by_cases h09 : ('0' ≤ c0 ∧ c0 ≤ '9')
    · have hcd : charDigit c0 = some ((c0.toNat : Int) - 48) := by
        rw [charDigit, if_pos h09]
      rw [if_pos h09]
      by_cases hge : ((c0.toNat : Int) - 48) ≥ b
      · rw [if_pos hge]
        constructor
        · intro h
          exact absurd h (by simp)
        · rintro (⟨hnone, -⟩ | ⟨hgood, -⟩)
          · rw [hcd] at hnone; cases hnone
          · rcases hgood with hsp | ⟨v, hv, hvb⟩
            · subst hsp; exact absurd h09 (by decide)
            · rw [hcd] at hv
              injection hv with hv'
              omega
      · rw [if_neg hge, ih _]
        constructor
        · intro h
          exact Or.inr ⟨Or.inr ⟨_, hcd, by omega⟩, h⟩
        · rintro (⟨hnone, -⟩ | ⟨-, h⟩)
          · rw [hcd] at hnone; cases hnone
          · exact h
    · by_cases haz : ('a' ≤ c0 ∧ c0 ≤ 'z')
      · have hcd : charDigit c0 = some (10 + ((c0.toNat : Int) - 97)) := by
          rw [charDigit, if_neg h09, if_pos haz]
        rw [if_neg h09, if_pos haz]
        by_cases hge : (10 + ((c0.toNat : Int) - 97)) ≥ b
        · rw [if_pos hge]
          constructor
          · intro h
            exact absurd h (by simp)
          · rintro (⟨hnone, -⟩ | ⟨hgood, -⟩)
            · rw [hcd] at hnone; cases hnone
            · rcases hgood with hsp | ⟨v, hv, hvb⟩
              · subst hsp; exact absurd haz (by decide)
              · rw [hcd] at hv
                injection hv with hv'
                omega
        · rw [if_neg hge, ih _]
          constructor
          · intro h
            exact Or.inr ⟨Or.inr ⟨_, hcd, by omega⟩, h⟩
          · rintro (⟨hnone, -⟩ | ⟨-, h⟩)
            · rw [hcd] at hnone; cases hnone
            · exact h
      · have hcd : charDigit c0 = none := by
          rw [charDigit, if_neg h09, if_neg haz]
        by_cases hsp : c0 = ' '
        · rw [if_neg h09, if_neg haz, if_pos hsp, ih _]
          constructor
          · intro h
            exact Or.inr ⟨Or.inl hsp, h⟩
          · rintro (⟨-, hne⟩ | ⟨-, h⟩)
            · exact absurd hsp hne
            · exact h
        · rw [if_neg h09, if_neg haz, if_neg hsp]
          constructor
          · intro h
            exact Or.inl ⟨hcd, hsp⟩
          · intro h
            rfl

theorem parseDigits_range_iff (b : Int) (cs : List Char) (acc : Int) :
    parseDigits b cs acc = .error .DigitOutOfRange ↔
      ∃ l c r, cs = l ++ c :: r ∧ (∃ v, charDigit c = some v ∧ v ≥ b)
        ∧ ∀ x ∈ l, GoodChar b x := by
  induction cs generalizing acc with
  | nil =>
    constructor
    · intro h
      exact absurd h (by simp [parseDigits])
    · rintro ⟨l, c, r, heq, -, -⟩
      simp at heq
  | cons c0 cs ih =>
    rw [parseDigits_cons,
      split_cons_iff (fun c => ∃ v, charDigit c = some v ∧ v ≥ b) (GoodChar b) c0 cs]
    by_cases h09 : ('0' ≤ c0 ∧ c0 ≤ '9')
    · have hcd : charDigit c0 = some ((c0.toNat : Int) - 48) := by
        rw [charDigit, if_pos h09]
      rw [if_pos h09]
      by_cases hge : ((c0.toNat : Int) - 48) ≥ b
      · rw [if_pos hge]
        constructor
        · intro h
          exact Or.inl ⟨_, hcd, hge⟩
        · intro h
          rfl
      · rw [if_neg hge, ih _]
        constructor
        · intro h
          exact Or.inr ⟨Or.inr ⟨_, hcd, by omega⟩, h⟩
        · rintro (⟨v, hv, hvb⟩ | ⟨-, h⟩)
          · rw [hcd] at hv
            injection hv with hv'
            omega
          · exact h
    · by_cases haz : ('a' ≤ c0 ∧ c0 ≤ 'z')
      · have hcd : charDigit c0 = some (10 + ((c0.toNat : Int) - 97)) := by
          rw [charDigit, if_neg h09, if_pos haz]
        rw [if_neg h09, if_pos haz]
        by_cases hge : (10 + ((c0.toNat : Int) - 97)) ≥ b
        · rw [if_pos hge]
          constructor
          · intro h
            exact Or.inl ⟨_, hcd, hge⟩
          · intro h
            rfl
        · rw [if_neg hge, ih _]
          constructor
          · intro h
            exact Or.inr ⟨Or.inr ⟨_, hcd, by omega⟩, h⟩
          · rintro (⟨v, hv, hvb⟩ | ⟨-, h⟩)
            · rw [hcd] at hv
              injection hv with hv'
              omega
            · exact h
      · have hcd : charDigit c0 = none := by
          rw [charDigit, if_neg h09, if_neg haz]
        by_cases hsp : c0 = ' '
        · rw [if_neg h09, if_neg haz, if_pos hsp, ih _]
          constructor
          · intro h
            exact Or.inr ⟨Or.inl hsp, h⟩
          · rintro (⟨v, hv, -⟩ | ⟨-, h⟩)
            · rw [hcd] at hv; cases hv
            · exact h
        · rw [if_neg h09, if_neg haz, if_neg hsp]
          constructor
          · intro h
            exact absurd h (by simp)
          · rintro (⟨v, hv, -⟩ | ⟨hgood, -⟩)
            · rw [hcd] at hv; cases hv
            · rcases hgood with hsp' | ⟨v, hv, -⟩
              · exact absurd hsp' hsp
              · rw [hcd] at hv; cases hv

end Solve

/-! ### Claim theorems -/

namespace Solve

theorem toBigIntExact_mk (n d : Int) :
    Fraction.toBigIntExact ⟨n, d⟩
      = if n.tmod d ≠ 0 then .error .NonIntegerResult else .ok (n.tdiv d) := rfl

theorem tmod_zero_iff_emod_zero (n d : Int) : n.tmod d = 0 ↔ n % d = 0 := by
  constructor
  · intro h
    exact Int.emod_eq_zero_of_dvd (Int.dvd_of_tmod_eq_zero h)
  · intro h
    exact Int.tmod_eq_zero_of_dvd (Int.dvd_of_emod_eq_zero h)

/-- C1: for every integer-coefficient polynomial (given by its coefficient
list `cs`, constant term first, so its degree is below `cs.length`) and every
list of pairwise-distinct-`x` integer sample points of it whose length `k` is
at least `cs.length`, `reconstructAtZero` on those points with threshold `k`
returns the polynomial's constant term; in particular, for the samples
`(1,10),(2,19),(3,32)` of `2x² + 3x + 5` with `k = 3` it returns `5`. -/
theorem claim1_round_trip :
    (∀ (cs : List Int) (points : List (Int × Int)),
        cs.length ≤ points.length →
        (∀ p ∈ points, p.2 = evalPoly cs p.1) →
        (points.map Prod.fst).Nodup →
        reconstructAtZero points points.length = .ok (evalPoly cs 0)) ∧
    reconstructAtZero [(1, 10), (2, 19), (3, 32)] 3 = .ok 5 :=
  ⟨reconstruct_ok, rfl⟩

/-- Witness for C1 at the polynomial `2x² + 3x + 5` and its three samples. -/
theorem claim1_round_trip_witness :
    reconstructAtZero [(1, 10), (2, 19), (3, 32)] 3 = .ok (evalPoly [5, 3, 2] 0) :=
  claim1_round_trip.1 [5, 3, 2] [(1, 10), (2, 19), (3, 32)]
    (by decide) (by decide) (by decide)

/-- C2: for every `Fraction` with numerator `n` and positive denominator `d`,
`toBigIntExact` fails with `NonIntegerResult` exactly when `n mod d ≠ 0` and
otherwise returns `n / d`; in particular `Fraction(1, 3)` fails the gate and
`Fraction(6, 3) = 2`. -/
theorem claim2_exactness_gate :
    (∀ (n d : Int), 0 < d →
      (Fraction.toBigIntExact ⟨n, d⟩ = .error .NonIntegerResult ↔ ¬ n % d = 0) ∧
      (n % d = 0 → Fraction.toBigIntExact ⟨n, d⟩ = .ok (n / d))) ∧
    (Fraction.make 1 3 = .ok ⟨1, 3⟩ ∧
      Fraction.toBigIntExact ⟨1, 3⟩ = .error .NonIntegerResult) ∧
    (Fraction.make 6 3 = .ok ⟨2, 1⟩ ∧ Fraction.toBigIntExact ⟨2, 1⟩ = .ok 2) := by
  refine ⟨?_, ⟨rfl, rfl⟩, ⟨rfl, rfl⟩⟩
  intro n d hd
  constructor
  · rw [toBigIntExact_mk]
    by_cases hz : n.tmod d = 0
    · rw [if_neg (by simpa using hz)]
      constructor
      · intro h
        exact absurd h (by simp)
      · intro h
        exact absurd ((tmod_zero_iff_emod_zero n d).mp hz) h
    · rw [if_pos (by simpa using hz)]
      constructor
      · intro _ hmod
        exact hz ((tmod_zero_iff_emod_zero n d).mpr hmod)
      · intro _
        rfl
  · intro hmod
    have hz : n.tmod d = 0 := (tmod_zero_iff_emod_zero n d).mpr hmod
    rw [toBigIntExact_mk, if_neg (by simpa using hz)]
    rw [tdiv_eq_ediv_of_dvd n d (Int.dvd_of_emod_eq_zero hmod)]

/-- Witness for C2 at `n = 6`, `d = 3`. -/
theorem claim2_exactness_gate_witness :
    Fraction.toBigIntExact ⟨6, 3⟩ = .ok ((6 : Int) / 3) :=
  (claim2_exactness_gate.1 6 3 (by decide)).2 (by decide)

/-- C3: every `Fraction` that construction, `add`, or `mul` successfully
produces has a positive denominator and is in lowest terms; in particular
`Fraction(4, -8)` normalizes to `(-1, 2)` and `Fraction(0, 5)` to `(0, 1)`. -/
theorem claim3_normalized_invariant :
    (∀ (n d : Int) (f : Fraction), Fraction.make n d = .ok f → f.Valid) ∧
    (∀ (a b f : Fraction), a.add b = .ok f → f.Valid) ∧
    (∀ (a b f : Fraction), a.mul b = .ok f → f.Valid) ∧
    Fraction.make 4 (-8) = .ok ⟨-1, 2⟩ ∧
    Fraction.make 0 5 = .ok ⟨0, 1⟩ := by
  refine ⟨?_, ?_, ?_, rfl, rfl⟩
  · intro n d f h
    exact Fraction.make_ok_valid h
  · intro a b f h
    exact Fraction.make_ok_valid h
  · intro a b f h
    exact Fraction.make_ok_valid h

/-- Witness for C3 at the two normalization instances. -/
theorem claim3_normalized_invariant_witness :
    Fraction.Valid ⟨-1, 2⟩ ∧ Fraction.Valid ⟨0, 1⟩ :=
  ⟨claim3_normalized_invariant.1 4 (-8) ⟨-1, 2⟩ rfl,
   claim3_normalized_invariant.1 0 5 ⟨0, 1⟩ rfl⟩

/-- C4: constructing a `Fraction` with denominator `0` fails with
`ZeroDenominator`, and whenever two of the first `k` points share an
`x`-coordinate, `reconstructAtZero` fails with `ZeroDenominator`. -/
theorem claim4_zero_denominator :
    (∀ n : Int, Fraction.make n 0 = .error .ZeroDenominator) ∧
    (∀ (points : List (Int × Int)) (k : Nat),
      ¬ ((points.take k).map Prod.fst).Nodup →
      reconstructAtZero points k = .error .ZeroDenominator) := by
  refine ⟨fun n => rfl, ?_⟩
  intro points k hdup
  classical
  set P := points.take k with hP
  have hdup' : ¬ List.Pairwise (· ≠ ·) (P.map Prod.fst) := hdup
  rw [List.pairwise_iff_getElem] at hdup'
  push_neg at hdup'
  obtain ⟨i, j, hi, hj, hij, heq⟩ := hdup'
  have hi' : i < P.length := by simpa using hi
  have hj' : j < P.length := by simpa using hj
  rw [List.getElem_map, List.getElem_map] at heq
  have heq' : ptx P i = ptx P j := by
    rw [ptx, ptx, List.getD_eq_getElem _ _ hi', List.getD_eq_getElem _ _ hj']
    exact heq
  have hex : ∃ m, m < P.length ∧
      ∃ j2, j2 < P.length ∧ j2 ≠ m ∧ ptx P j2 = ptx P m :=
    ⟨i, hi', j, hj', by omega, heq'.symm⟩
  have hQ := Nat.find_spec hex
  have hdistpart : ∀ a, a < Nat.find hex → ∀ b2, b2 < P.length →
      b2 ≠ a → ptx P a ≠ ptx P b2 := by
    intro a ha b2 hb2 hba heqx
    exact Nat.find_min hex ha ⟨lt_trans ha hQ.1, b2, hb2, hba, heqx.symm⟩
  obtain ⟨s, hs, -, -⟩ := sumAux_spec P (Nat.find hex) hdistpart
  have hz : (basisWeight P (Nat.find hex)).2 = 0 := by
    rw [basisWeight_eq_weightAux]
    obtain ⟨-, j2, hj2, hne2, heq2⟩ := hQ
    exact weightAux_den_zero P (Nat.find hex) P.length ⟨j2, hj2, hne2, heq2⟩
  have herr := sumAux_error_at P P.length (Nat.find hex) hQ.1 ⟨s, hs⟩ hz
  rw [reconstructAtZero_eq, herr]
  rfl

/-- Witness for C4 at denominator `0` and a duplicated `x`-coordinate. -/
theorem claim4_zero_denominator_witness :
    Fraction.make 7 0 = .error .ZeroDenominator ∧
    reconstructAtZero [(1, 10), (1, 11), (3, 32)] 3 = .error .ZeroDenominator :=
  ⟨claim4_zero_denominator.1 7, claim4_zero_denominator.2 _ 3 (by decide)⟩

/-- C5: the decoder maps digit characters to their values and accumulates
`res = res * base + digit` left to right, skipping spaces, so a string of
in-range digits decodes to its standard positional-notation value; in
particular the four instances from the spec hold. -/
theorem claim5_decode_positional :
    (∀ (b : Int) (ds : List Nat), 2 ≤ b → b ≤ 36 →
        (∀ v ∈ ds, (v : Int) < b) →
        parseInBase (ds.map digitToChar) b
          = .ok (ds.foldl (fun (r : Int) (v : Nat) => r * b + (v : Int)) 0)) ∧
    (∀ (b : Int) (cs : List Char) (acc : Int),
        parseDigits b (' ' :: cs) acc = parseDigits b cs acc) ∧
    parseInBase ['f', 'f'] 16 = .ok 255 ∧
    parseInBase ['1', '1', '1'] 2 = .ok 7 ∧
    parseInBase ['z'] 36 = .ok 35 ∧
    parseInBase ['1', '0'] 10 = .ok 10 := by
  refine ⟨?_, ?_, rfl, rfl, rfl, rfl⟩
  · intro b ds h2 h36 hlt
    apply parseInBase_digits
    intro v hv
    have := hlt v hv
    exact ⟨by omega, this⟩
  · intro b cs acc
    rfl

/-- Witness for C5 decoding `255` in base `10` from digit values `2,5,5`. -/
theorem claim5_decode_positional_witness :
    parseInBase ([2, 5, 5].map digitToChar) 10
      = .ok ([2, 5, 5].foldl (fun (r : Int) (v : Nat) => r * (10 : Int) + (v : Int)) 0) :=
  claim5_decode_positional.1 10 [2, 5, 5] (by decide) (by decide) (by decide)

/-- Counterexample to C6 as stated: the trimmed, case-folded input `"g#"`
contains the character `#`, which is outside `[0-9a-z]` and is not a space,
yet `parseInBase "g#" 16` does not fail with `InvalidDigit` — the digit `g`
is rejected first with `DigitOutOfRange` — so "fails with `InvalidDigit`
exactly when some character is outside the alphabet" does not hold. -/
theorem claim6_counterexample :
    parseInBase ['g', '#'] 16 = .error .DigitOutOfRange ∧
    parseInBase ['g', '#'] 16 ≠ .error .InvalidDigit ∧
    '#' ∈ (jsTrim ['g', '#']).map jsToLower ∧
    charDigit '#' = none ∧ '#' ≠ ' ' := by
  refine ⟨rfl, ?_, by decide, rfl, by decide⟩
  intro h
  rw [show parseInBase ['g', '#'] 16 = .error .DigitOutOfRange from rfl] at h
  injection h with h'
  cases h'

/-- C6 (amended): scanning the trimmed, case-folded string left to right,
`parseInBase` fails with `InvalidDigit` exactly when some character outside
`[0-9a-z]` and not a space occurs with every earlier character a space or an
in-range digit, and fails with `DigitOutOfRange` exactly when some alphabet
digit of value `≥ base` occurs with every earlier character a space or an
in-range digit; in particular `decode("1g",16)` fails with `DigitOutOfRange`
and `decode("1#",16)` fails with `InvalidDigit`. -/
theorem claim6_error_conditions :
    (∀ (str : List Char) (b : Int),
      (parseInBase str b = .error .InvalidDigit ↔
        ∃ l c r, (jsTrim str).map jsToLower = l ++ c :: r ∧
          (charDigit c = none ∧ c ≠ ' ') ∧ ∀ x ∈ l, GoodChar b x) ∧
      (parseInBase str b = .error .DigitOutOfRange ↔
        ∃ l c r, (jsTrim str).map jsToLower = l ++ c :: r ∧
          (∃ v, charDigit c = some v ∧ v ≥ b) ∧ ∀ x ∈ l, GoodChar b x)) ∧
    parseInBase ['1', 'g'] 16 = .error .DigitOutOfRange ∧
    parseInBase ['1', '#'] 16 = .error .InvalidDigit := by
  refine ⟨?_, rfl, rfl⟩
  intro str b
  exact ⟨parseDigits_invalid_iff b _ 0, parseDigits_range_iff b _ 0⟩

/-- Witness for C6 (amended) at the input `"1#"` in base 16. -/
theorem claim6_error_conditions_witness :
    parseInBase ['1', '#'] 16 = .error .InvalidDigit ∧
    ∃ l c r, (jsTrim ['1', '#']).map jsToLower = l ++ c :: r ∧
      (charDigit c = none ∧ c ≠ ' ') ∧ ∀ x ∈ l, GoodChar 16 x :=
  ⟨claim6_error_conditions.2.2,
   ((claim6_error_conditions.1 ['1', '#'] 16).1).mp claim6_error_conditions.2.2⟩

/-- C7: with pairwise-distinct `x`-coordinates among the first `k` points,
`reconstructAtZero` equals the variant of the same algorithm with the
intermediate gcd reduction removed - the reduction affects only intermediate
magnitudes, never the result or the errors raised. -/
theorem claim7_reduction_immaterial :
    ∀ (points : List (Int × Int)) (k : Nat),
      ((points.take k).map Prod.fst).Nodup →
      reconstructAtZero points k = reconstructAtZeroNoRed points k := by
  intro points k hnd
  have hdist := nodup_ptx _ hnd
  rw [reconstructAtZero_eq, reconstructAtZeroNoRed_eq,
    sumAux_eq_noRed _ _ (fun i hi j hj hji => hdist i hi j hj hji)]

/-- Witness for C7 at the three-point example. -/
theorem claim7_reduction_immaterial_witness :
    reconstructAtZero [(1, 10), (2, 19), (3, 32)] 3
      = reconstructAtZeroNoRed [(1, 10), (2, 19), (3, 32)] 3 :=
  claim7_reduction_immaterial _ 3 (by decide)

/-- C8: with at least `k` points available, `reconstructAtZero` depends only
on the first `k` points: it equals the same call on the `k`-element front
segment, so surplus points never affect the result or the errors raised. -/
theorem claim8_first_k_points :
    ∀ (points : List (Int × Int)) (k : Nat), k ≤ points.length →
      reconstructAtZero points k = reconstructAtZero (points.take k) k := by
  intro points k hk
  rw [reconstructAtZero_eq, reconstructAtZero_eq]
  simp [List.take_take]

/-- Witness for C8 with one surplus point. -/
theorem claim8_first_k_points_witness :
    reconstructAtZero [(1, 10), (2, 19), (3, 32), (7, 999)] 3
      = reconstructAtZero ([(1, 10), (2, 19), (3, 32), (7, 999)].take 3) 3 :=
  claim8_first_k_points _ 3 (by decide)

/-- C9: `parseInBase` never checks that the base lies in `[2, 36]`: for any
base it decodes any digit string whose digit values are below the base, and
in particular base `1` and base `37` succeed. -/
theorem claim9_no_base_validation :
    parseInBase ['0'] 1 = .ok 0 ∧
    parseInBase ['z'] 37 = .ok 35 ∧
    (∀ (b : Int) (ds : List Nat), (∀ v ∈ ds, v < 36 ∧ (v : Int) < b) →
      parseInBase (ds.map digitToChar) b
        = .ok (ds.foldl (fun (r : Int) (v : Nat) => r * b + (v : Int)) 0)) :=
  ⟨rfl, rfl, parseInBase_digits⟩

/-- Witness for C9 decoding the digit `z` in base 37. -/
theorem claim9_no_base_validation_witness :
    parseInBase ([35].map digitToChar) 37
      = .ok ([35].foldl (fun (r : Int) (v : Nat) => r * (37 : Int) + (v : Int)) 0) :=
  claim9_no_base_validation.2.2 37 [35] (by decide)

/-- C10: for every base, `parseInBase` on an empty or all-space string
returns `0` rather than raising an error. -/
theorem claim10_empty_decodes_zero :
    (∀ b : Int, parseInBase [] b = .ok 0) ∧
    (∀ (b : Int) (s : List Char), (∀ c ∈ s, c = ' ') → parseInBase s b = .ok 0) :=
  ⟨fun _ => rfl, fun b s h => parseInBase_spaces b s h⟩

/-- Witness for C10 at a three-space string in base 12. -/
theorem claim10_empty_decodes_zero_witness :
    parseInBase [' ', ' ', ' '] 12 = .ok 0 :=
  claim10_empty_decodes_zero.2 12 [' ', ' ', ' '] (by decide)

end Solve
